import Mathlib

/-!
# Verification of the mycota colour-picker geometry core

Shallow embedding of `mycota/colour_picker.py`.  Machine floating point is
modelled by exact arithmetic: rational numbers everywhere the code only adds,
multiplies and divides, and real numbers where a square root appears
(normalisation of the fitted plane normal).  The two library solvers the code
calls are modelled by their documented contracts:

* `np.linalg.lstsq` returns a minimiser of the residual sum of squares; on a
  full-column-rank system this is the unique solution of the normal equations,
  which we compute explicitly through the adjugate.  The lemma
  `lstsqNormal_minimises` below proves that the explicit formula is indeed the
  least-squares minimiser, so the embedding is faithful to the contract.
* `scipy.optimize.milp` with continuous variables solves a linear program; on
  `result.success` the returned vector `result.x` satisfies the bound and
  equality constraints that were handed to the solver.  Feasibility of the
  returned point is the part of the contract the claims need.
-/

namespace Mycota

open Matrix

/-! ## Plane fitter (`fit_plane`)

```python
offset = -128.
rhs = 127
sel = [0, 6, 12, 18, -1]
normal, residuals, rank, singular = np.linalg.lstsq(
    a=colours[sel] + offset, b=np.full(shape=len(sel), fill_value=rhs))
if rank != 3: raise ValueError(...)
rhs -= offset*normal.sum()
mag = np.linalg.norm(normal)
normal /= mag
rhs /= mag
```
-/

/-- The fixed translation added to every channel before the fit
(`offset = -128.`). -/
def offset : ℚ := -128

/-- The least-squares target value (`rhs = 127` before offset correction). -/
def targetValue : ℚ := 127

/-- The fixed selected row indices (`sel = [0, 6, 12, 18, -1]`); the Python
index `-1` denotes the last row, at position `length - 1`. -/
def sel (length : ℕ) : List ℕ := [0, 6, 12, 18, length - 1]

/-- Row `i` of the least-squares left-hand side `colours[sel] + offset`:
the selected colour rows, each channel translated by `offset`.  Out-of-range
indices are given row `0`; the code is only ever run on tables with at least
19 rows, where every selected index is in range. -/
def selMatrix (colours : List (Fin 3 → ℚ)) : Matrix (Fin 5) (Fin 3) ℚ :=
  Matrix.of fun i j => (colours.getD ((sel colours.length).getD i.1 0) 0) j + offset

/-- The right-hand side `np.full(shape=len(sel), fill_value=rhs)`. -/
def selTarget : Fin 5 → ℚ := fun _ => targetValue

/-- The Gram matrix `aᵀa` of the least-squares system of `fit_plane`. -/
def planeGram (colours : List (Fin 3 → ℚ)) : Matrix (Fin 3) (Fin 3) ℚ :=
  (selMatrix colours)ᵀ * selMatrix colours

/-- Determinant of a 3 x 3 rational matrix, written out so that it evaluates
by kernel reduction; equals `Matrix.det` by `det3_eq`. -/
def det3 (M : Matrix (Fin 3) (Fin 3) ℚ) : ℚ :=
  M 0 0 * M 1 1 * M 2 2 - M 0 0 * M 1 2 * M 2 1
    - M 0 1 * M 1 0 * M 2 2 + M 0 1 * M 1 2 * M 2 0
    + M 0 2 * M 1 0 * M 2 1 - M 0 2 * M 1 1 * M 2 0

/-- Adjugate of a 3 x 3 rational matrix, written out so that it evaluates by
kernel reduction; equals `Matrix.adjugate` by `adj3_eq`. -/
def adj3 (M : Matrix (Fin 3) (Fin 3) ℚ) : Matrix (Fin 3) (Fin 3) ℚ :=
  !![M 1 1 * M 2 2 - M 1 2 * M 2 1,
     -(M 0 1 * M 2 2) + M 0 2 * M 2 1,
     M 0 1 * M 1 2 - M 0 2 * M 1 1;
     -(M 1 0 * M 2 2) + M 1 2 * M 2 0,
     M 0 0 * M 2 2 - M 0 2 * M 2 0,
     -(M 0 0 * M 1 2) + M 0 2 * M 1 0;
     M 1 0 * M 2 1 - M 1 1 * M 2 0,
     -(M 0 0 * M 2 1) + M 0 1 * M 2 0,
     M 0 0 * M 1 1 - M 0 1 * M 1 0]

/-- The solution `normal` that `np.linalg.lstsq` returns on the success path
of `fit_plane`: the unique solution of the normal equations
`aᵀa normal = aᵀ b`, computed through the adjugate so that the definition is
executable.  (`lstsqNormal_minimises` proves it minimises the residual.) -/
def lstsqNormal (colours : List (Fin 3 → ℚ)) : Fin 3 → ℚ :=
  ((det3 (planeGram colours))⁻¹ • adj3 (planeGram colours)).mulVec
    ((selMatrix colours)ᵀ.mulVec selTarget)

/-- The offset-corrected right-hand side
`rhs -= offset*normal.sum()`, i.e. `127 - offset * Σ normal`. -/
def correctedRhs (colours : List (Fin 3 → ℚ)) : ℚ :=
  targetValue - offset * (∑ i, lstsqNormal colours i)

/-- Euclidean magnitude of a 3-vector, `np.linalg.norm`. -/
noncomputable def magnitude (v : Fin 3 → ℝ) : ℝ := Real.sqrt (v ⬝ᵥ v)

/-- A fitted plane: `point ⬝ normal = rhs`. -/
structure Plane where
  normal : Fin 3 → ℝ
  rhs : ℝ

/-- The unnormalised fitted normal, cast to the reals. -/
def rawNormal (colours : List (Fin 3 → ℚ)) : Fin 3 → ℝ :=
  fun i => (lstsqNormal colours i : ℝ)

/-- Model of `fit_plane`: raises (`ValueError`, the degenerate-fit error) when the rank
of the least-squares system is not 3, which for a 5 x 3 system is exactly when
the Gram determinant vanishes; otherwise offset-corrects the right-hand side
and rescales `(normal, rhs)` by the magnitude of `normal`. -/
noncomputable def fit_plane (colours : List (Fin 3 → ℚ)) : Except String Plane :=
  if det3 (planeGram colours) = 0 then
    .error "Deficient rank"
  else
    .ok { normal := fun i => rawNormal colours i / magnitude (rawNormal colours)
          rhs := (correctedRhs colours : ℝ) / magnitude (rawNormal colours) }

/-- Residual sum of squares of a candidate `x` for the plane fit. -/
def planeResidual (colours : List (Fin 3 → ℚ)) (x : Fin 3 → ℚ) : ℚ :=
  ((selMatrix colours).mulVec x - selTarget) ⬝ᵥ ((selMatrix colours).mulVec x - selTarget)

/-- Concrete 19-row colour table for the plane-fitter witness: the selected
rows 0, 6, 12 and 18 (row 18 is also the last row) become, after the -128
offset, the three standard basis vectors and the zero row. -/
def fitPlaneWitnessColours : List (Fin 3 → ℚ) :=
  [![129, 128, 128], ![0, 0, 0], ![0, 0, 0], ![0, 0, 0], ![0, 0, 0], ![0, 0, 0],
   ![128, 129, 128], ![0, 0, 0], ![0, 0, 0], ![0, 0, 0], ![0, 0, 0], ![0, 0, 0],
   ![128, 128, 129], ![0, 0, 0], ![0, 0, 0], ![0, 0, 0], ![0, 0, 0], ![0, 0, 0],
   ![128, 128, 128]]

/-- A variant of the witness table differing only in row 1, which is not one
of the five rows `fit_plane` reads. -/
def noninterfVariant : List (Fin 3 → ℚ) :=
  [![129, 128, 128], ![7, 7, 7], ![0, 0, 0], ![0, 0, 0], ![0, 0, 0], ![0, 0, 0],
   ![128, 129, 128], ![0, 0, 0], ![0, 0, 0], ![0, 0, 0], ![0, 0, 0], ![0, 0, 0],
   ![128, 128, 129], ![0, 0, 0], ![0, 0, 0], ![0, 0, 0], ![0, 0, 0], ![0, 0, 0],
   ![128, 128, 128]]

/-! ## Perpendicular projector (`project_irregular`)

```python
offset = rhs/normal[0], 0, 0
v = colours - offset
w = normal
return offset + v - np.outer(v@w, w/w.dot(w))
```
Per point, the embedding below is the row of the vectorised expression. -/

/-- Model of `project_irregular` on a single colour point. -/
def project_irregular (colour normal : Fin 3 → ℚ) (rhs : ℚ) : Fin 3 → ℚ :=
  ![rhs / normal 0, 0, 0] + (colour - ![rhs / normal 0, 0, 0]) -
    ((colour - ![rhs / normal 0, 0, 0]) ⬝ᵥ normal) •
      fun i => normal i / (normal ⬝ᵥ normal)

/-! ## Grid rasteriser (`project_grid`)

```python
channel = np.arange(0, 256, 5, dtype=np.uint8)
ggbb = np.stack(np.meshgrid(channel, channel), axis=-1)
rr = rhs/normal[0] - ggbb@(normal[1:]/normal[0])
projected = np.concatenate((rr[..., np.newaxis], ggbb), axis=2).clip(min=0, max=255)
```
`np.arange(0, 256, 5)` has the 52 entries `0, 5, ..., 255`; at grid cell
`(i, j)` the meshgrid stack holds `(channel[j], channel[i])`. -/

/-- The sampled channel values `np.arange(0, 256, 5)`. -/
def channel (k : Fin 52) : ℚ := 5 * k.1

/-- The stacked green-blue grid: entry `(i, j)` is `(channel[j], channel[i])`. -/
def ggbb (i j : Fin 52) : Fin 2 → ℚ := ![channel j, channel i]

/-- The red value solved from the plane equation at cell `(i, j)`. -/
def solvedRed (normal : Fin 3 → ℚ) (rhs : ℚ) (i j : Fin 52) : ℚ :=
  rhs / normal 0 - ggbb i j ⬝ᵥ ![normal 1 / normal 0, normal 2 / normal 0]

/-- Model of `ndarray.clip(min=0, max=255)` on one value. -/
def clip255 (x : ℚ) : ℚ := min (max x 0) 255

/-- Model of `project_grid`: the clipped `(red, green, blue)` field. -/
def project_grid (normal : Fin 3 → ℚ) (rhs : ℚ) (i j : Fin 52) : Fin 3 → ℚ :=
  fun ch => clip255 (![solvedRed normal rhs i j, ggbb i j 0, ggbb i j 1] ch)

/-! ## Corner-constrained affine fitter (`fit_project_linprog`)

Variable layout (`2*4 + 2*n = 8 + 2*n` scalars, flattened
`abcd efgh uuu... vvv...`):

```python
cost = np.zeros(2*4 + 2*n)
cost[2*4 + corner_idx] = directions[0]
cost[2*4 + corner_idx + n] = directions[1]
lb = concatenate((full(2*4, -inf), zeros(2*n)))
ub = concatenate((full(2*4, +inf), ones(2*n)))
affine = np.hstack((colours, np.ones((n, 1))))
a = hstack((block_diag((affine, affine)), -eye(2n)))
result = milp(c=cost, integrality=0, bounds=Bounds(lb, ub),
              constraints=LinearConstraint(A=a, lb=0, ub=0))
projection, projected = np.split(result.x, (2*4,))
projection = projection.reshape((2, 4)).T
projected = projected.reshape((2, -1)).T
```

On `result.success`, scipy guarantees `result.x` satisfies the bounds and
the equality constraints; `feasibleSolution` below is exactly that
guarantee, and every theorem about a successful run quantifies over the
feasible solver output. -/

/-- Row `i`, column `j` (as a natural) of the homogeneous colour matrix
`np.hstack((colours, np.ones((n, 1))))`: columns 0-2 hold the rgb channels,
column 3 the homogeneous 1. -/
def affineEntry {n : ℕ} (colours : Fin n → Fin 3 → ℚ) (i : Fin n) (j : ℕ) : ℚ :=
  if h : j < 3 then colours i ⟨j, h⟩ else 1

/-- The homogeneous colour matrix `np.hstack((colours, np.ones((n, 1))))`. -/
def affineMat {n : ℕ} (colours : Fin n → Fin 3 → ℚ) : Matrix (Fin n) (Fin 4) ℚ :=
  Matrix.of fun i j => affineEntry colours i j.1

/-- Model of `scipy.sparse.block_diag((affine, affine))`: rows below `n` hold the
first copy of the homogeneous colour matrix in columns 0-3, rows from `n`
on hold the second copy in columns 4-7. -/
def blockDiag2 {n : ℕ} (colours : Fin n → Fin 3 → ℚ) :
    Matrix (Fin (2*n)) (Fin 8) ℚ :=
  Matrix.of fun r c =>
    if hr : r.1 < n then
      (if c.1 < 4 then affineEntry colours ⟨r.1, hr⟩ c.1 else 0)
    else
      (if 4 ≤ c.1 then
        affineEntry colours ⟨r.1 - n, by have := r.isLt; omega⟩ (c.1 - 4) else 0)

/-- The equality-constraint matrix
`hstack((block_diag((affine, affine)), -eye_array(2*n)))`. -/
def constraintMat {n : ℕ} (colours : Fin n → Fin 3 → ℚ) :
    Matrix (Fin (2*n)) (Fin (8+2*n)) ℚ :=
  Matrix.of fun r c =>
    if hc : c.1 < 8 then blockDiag2 colours r ⟨c.1, hc⟩
    else if c.1 - 8 = r.1 then -1 else 0

/-- Lower bounds: `-inf` (encoded `none`) on the 8 projection entries,
`0` on every projected coordinate. -/
def lowerBound (n : ℕ) : Fin (8+2*n) → Option ℚ :=
  fun c => if c.1 < 8 then none else some 0

/-- Upper bounds: `+inf` (encoded `none`) on the 8 projection entries,
`1` on every projected coordinate. -/
def upperBound (n : ℕ) : Fin (8+2*n) → Option ℚ :=
  fun c => if c.1 < 8 then none else some 1

/-- The box constraints handed to the solver hold of `x`. -/
def satisfiesBounds (n : ℕ) (x : Fin (8+2*n) → ℚ) : Prop :=
  ∀ c, (∀ q ∈ lowerBound n c, q ≤ x c) ∧ (∀ q ∈ upperBound n c, x c ≤ q)

/-- The equality constraints `a @ x = 0` (`LinearConstraint(A=a, lb=0, ub=0)`)
hold of `x`. -/
def satisfiesConstraints {n : ℕ} (colours : Fin n → Fin 3 → ℚ)
    (x : Fin (8+2*n) → ℚ) : Prop :=
  ∀ r, (constraintMat colours).mulVec x r = 0

/-- What `result.success` guarantees of the returned `result.x`. -/
def feasibleSolution {n : ℕ} (colours : Fin n → Fin 3 → ℚ)
    (x : Fin (8+2*n) → ℚ) : Prop :=
  satisfiesBounds n x ∧ satisfiesConstraints colours x

/-- The slice `projection = result.x[:8].reshape((2, 4)).T`: the 4 x 2 affine matrix. -/
def projectionOf {n : ℕ} (x : Fin (8+2*n) → ℚ) : Matrix (Fin 4) (Fin 2) ℚ :=
  Matrix.of fun j k => x ⟨4 * k.1 + j.1, by have := k.isLt; have := j.isLt; omega⟩

/-- The slice `projected = result.x[8:].reshape((2, -1)).T`: row `i` is `(u_i, v_i)`. -/
def projectedOf {n : ℕ} (x : Fin (8+2*n) → ℚ) : Fin n → Fin 2 → ℚ :=
  fun i k => x ⟨8 + k.1 * n + i.1, by
    have hk := k.isLt
    have hi := i.isLt
    have hkn : k.1 * n ≤ 1 * n := Nat.mul_le_mul_right n (by omega)
    omega⟩

/-- The pair `fit_project_linprog` returns, recovered from the solver
vector: the 4 x 2 projection matrix and the n x 2 projected point matrix. -/
def fit_project_linprog {n : ℕ} (x : Fin (8+2*n) → ℚ) :
    Matrix (Fin 4) (Fin 2) ℚ × (Fin n → Fin 2 → ℚ) :=
  (projectionOf x, projectedOf x)

/-- Witness data for the fitter claims: one black sample, all variables 0. -/
def lpWitnessColours : Fin 1 → Fin 3 → ℚ := fun _ => ![0, 0, 0]

/-! ### The objective vector (C5) -/

/-- The array `directions = 1 - 2*corner_targets.T`: the cost coefficient of each
anchor coordinate, `+1` for a target of 0 and `-1` for a target of 1. -/
def directions (corner_targets : Fin 4 → Fin 2 → ℚ) : Fin 2 → Fin 4 → ℚ :=
  fun k c => 1 - 2 * corner_targets c k

/-- Index of the u-coordinate cost entry of sample `i` (`2*4 + i`). -/
def uCostIndex {n : ℕ} (i : Fin n) : Fin (8+2*n) :=
  ⟨8 + i.1, by have := i.isLt; omega⟩

/-- Index of the v-coordinate cost entry of sample `i` (`2*4 + i + n`). -/
def vCostIndex {n : ℕ} (i : Fin n) : Fin (8+2*n) :=
  ⟨8 + i.1 + n, by have := i.isLt; omega⟩

/-- Sequential pointwise assignment: numpy fancy-index assignment
`dst[g(c)] = v(c)` for every `c` of `l`, in order (on duplicate indices the
later entry wins, as in numpy). -/
def applyUpdates {γ α β : Type*} [DecidableEq α] (g : γ → α) (v : γ → β)
    (l : List γ) (f : α → β) : α → β :=
  l.foldl (fun acc c => Function.update acc (g c) (v c)) f

/-- The objective vector built by `fit_project_linprog`:
`cost = np.zeros(2*4 + 2*n)`, then `cost[2*4 + corner_idx] = directions[0]`
and `cost[2*4 + corner_idx + n] = directions[1]`. -/
def costVec {n : ℕ} (corner_idx : Fin 4 → Fin n)
    (corner_targets : Fin 4 → Fin 2 → ℚ) : Fin (8+2*n) → ℚ :=
  applyUpdates (fun c => vCostIndex (corner_idx c))
    (fun c => directions corner_targets 1 c) (List.finRange 4)
    (applyUpdates (fun c => uCostIndex (corner_idx c))
      (fun c => directions corner_targets 0 c) (List.finRange 4)
      (fun _ => 0))

/-- The demo corner targets `np.array(((0, 0), (0, 1), (1, 0), (1, 1)))`. -/
def demoCornerTargets : Fin 4 → Fin 2 → ℚ := ![![0, 0], ![0, 1], ![1, 0], ![1, 1]]

/-! ## Antiprojector (`get_antiprojection`)

```python
anti, residual, rank, singular = np.linalg.lstsq(
    a=np.hstack((projected[corner_idx], np.ones((len(corner_idx), 1)))),
    b=colours[corner_idx])
return anti
```

The system is 4 x 3 (four anchor rows over columns u, v, 1), the unknown
`anti` is 3 x 3, solved columnwise by least squares.  The lstsq result is
received as a 4-tuple; the reported rank is discarded and no branch
raises. -/

/-- The left-hand side `np.hstack((projected[corner_idx], ones((4, 1))))`. -/
def antiSystem {n : ℕ} (projected : Fin n → Fin 2 → ℚ) (corner_idx : Fin 4 → Fin n) :
    Matrix (Fin 4) (Fin 3) ℚ :=
  Matrix.of fun c j => if h : j.1 < 2 then projected (corner_idx c) ⟨j.1, h⟩ else 1

/-- The right-hand side `colours[corner_idx]`. -/
def antiTarget {n : ℕ} (colours : Fin n → Fin 3 → ℚ) (corner_idx : Fin 4 → Fin n) :
    Matrix (Fin 4) (Fin 3) ℚ :=
  Matrix.of fun c ch => colours (corner_idx c) ch

/-- The (columnwise) least-squares normal equations of the antiprojection
system: every matrix that minimises the residual - in particular the matrix
`np.linalg.lstsq` returns, full rank or not - satisfies them. -/
def IsLstsqSol (A b : Matrix (Fin 4) (Fin 3) ℚ)
    (X : Matrix (Fin 3) (Fin 3) ℚ) : Prop :=
  Aᵀ * (A * X) = Aᵀ * b

/-- Model of `get_antiprojection`: destructures the lstsq 4-tuple `(anti, residual,
rank, singular)` and returns `anti` unconditionally.  The reported rank is
received and discarded: there is no rank test and no raise path. -/
def get_antiprojection {n : ℕ} (_colours : Fin n → Fin 3 → ℚ)
    (_projected : Fin n → Fin 2 → ℚ) (_corner_idx : Fin 4 → Fin n)
    (anti : Matrix (Fin 3) (Fin 3) ℚ) (_rank : ℕ) :
    Except String (Matrix (Fin 3) (Fin 3) ℚ) :=
  .ok anti

/-- Round trip within tolerance: applying the returned antiprojection to
each homogeneous anchor row `(u, v, 1)` reproduces the colour of that anchor to
within `tol` in every channel. -/
def roundTripWithin {n : ℕ} (colours : Fin n → Fin 3 → ℚ)
    (projected : Fin n → Fin 2 → ℚ) (corner_idx : Fin 4 → Fin n)
    (anti : Matrix (Fin 3) (Fin 3) ℚ) (tol : ℚ) : Prop :=
  ∀ c ch, |(antiSystem projected corner_idx * anti) c ch -
    antiTarget colours corner_idx c ch| ≤ tol

/-- The demo anchor colours black, green, ochre, white. -/
def demoAnchorColours : Fin 4 → Fin 3 → ℚ :=
  ![![0, 0, 0], ![124, 138, 104], ![204, 119, 34], ![255, 255, 255]]

/-- Anchor (u, v) coordinates sitting exactly at the four unit-square
corners - the best case for the round-trip claim. -/
def demoAnchorProjected : Fin 4 → Fin 2 → ℚ := ![![0, 0], ![0, 1], ![1, 0], ![1, 1]]

/-- A degenerate projection: all four anchors land on the same point, the
origin corner. -/
def degenerateProjected : Fin 4 → Fin 2 → ℚ := fun _ => ![0, 0]

/-! ## Triangulated field renderer (`plot_delaunay_gouraud`)

```python
missing_corners = corner_targets[~(
    projected[np.newaxis, ::] == corner_targets[:, np.newaxis, :]
).all(axis=2).any(axis=1)]
projected_with_corners = np.concatenate((projected, missing_corners), axis=0)
corner_rgb = (
    np.hstack((missing_corners, np.ones((len(missing_corners), 1)))) @ antiprojection
).clip(min=0, max=255).astype(np.uint8)
```

A corner is kept in `missing_corners` exactly when no projected row equals
it in both coordinates. -/

/-- Applying the antiprojection to homogeneous `(u, v, 1)`:
`np.hstack((uv, 1)) @ antiprojection`. -/
def antiApply (anti : Matrix (Fin 3) (Fin 3) ℚ) (c : ℚ × ℚ) : Fin 3 → ℚ :=
  fun ch => c.1 * anti 0 ch + c.2 * anti 1 ch + anti 2 ch

/-- The target corners not exactly occupied by any projected row. -/
def missing_corners (corner_targets projected : List (ℚ × ℚ)) : List (ℚ × ℚ) :=
  corner_targets.filter (fun c => decide (c ∉ projected))

/-- The array `projected_with_corners`: the projected rows with the synthetic corners
appended. -/
def projected_with_corners (corner_targets projected : List (ℚ × ℚ)) :
    List (ℚ × ℚ) :=
  projected ++ missing_corners corner_targets projected

/-- One synthetic corner colour: the antiprojection of the homogeneous
corner, clipped to `[0, 255]`, then truncated by the uint8 cast (floor of a
nonnegative value). -/
def syntheticRGB (anti : Matrix (Fin 3) (Fin 3) ℚ) (c : ℚ × ℚ) : Fin 3 → ℤ :=
  fun ch => ⌊clip255 (antiApply anti c ch)⌋

/-- The synthetic corner colour list (`corner_rgb`). -/
def corner_rgb (anti : Matrix (Fin 3) (Fin 3) ℚ)
    (corner_targets projected : List (ℚ × ℚ)) : List (Fin 3 → ℤ) :=
  (missing_corners corner_targets projected).map (syntheticRGB anti)

/-- The demo corner target rows `((0, 0), (0, 1), (1, 0), (1, 1))`. -/
def cornerTargetList : List (ℚ × ℚ) := [(0, 0), (0, 1), (1, 0), (1, 1)]

/-! ## Theorems -/

theorem det3_eq (M : Matrix (Fin 3) (Fin 3) ℚ) : det3 M = M.det :=
  (Matrix.det_fin_three M).symm

theorem adj3_eq (M : Matrix (Fin 3) (Fin 3) ℚ) : adj3 M = M.adjugate :=
  (Matrix.adjugate_fin_three M).symm

/-! Supporting lemmas for the plane fitter. -/

/-- On the full-rank path the explicit `lstsqNormal` satisfies the normal
equations `aᵀa x = aᵀ b`. -/
theorem lstsqNormal_normal_equations (colours : List (Fin 3 → ℚ))
    (h : det3 (planeGram colours) ≠ 0) :
    (planeGram colours).mulVec (lstsqNormal colours) =
      (selMatrix colours)ᵀ.mulVec selTarget := by
  have hdet : (planeGram colours).det ≠ 0 := by rwa [det3_eq] at h
  have hinv : planeGram colours *
      ((det3 (planeGram colours))⁻¹ • adj3 (planeGram colours)) = 1 := by
    rw [adj3_eq, det3_eq, Matrix.mul_smul, Matrix.mul_adjugate, smul_smul,
      inv_mul_cancel₀ hdet, one_smul]
  unfold lstsqNormal
  rw [Matrix.mulVec_mulVec, hinv, Matrix.one_mulVec]

/-- The residual of any candidate splits as the residual of `lstsqNormal`
plus the squared norm of the difference image. -/
theorem planeResidual_expand (colours : List (Fin 3 → ℚ))
    (h : det3 (planeGram colours) ≠ 0) (x : Fin 3 → ℚ) :
    planeResidual colours x =
      planeResidual colours (lstsqNormal colours) +
        ((selMatrix colours).mulVec (x - lstsqNormal colours)) ⬝ᵥ
          ((selMatrix colours).mulVec (x - lstsqNormal colours)) := by
  unfold planeResidual
  set A := selMatrix colours with hA
  set b := selTarget with hb
  set β := lstsqNormal colours with hβ
  have hne : Aᵀ.mulVec (A.mulVec β - b) = 0 := by
    have hG := lstsqNormal_normal_equations colours h
    rw [Matrix.mulVec_sub, Matrix.mulVec_mulVec]
    rw [show Aᵀ * A = planeGram colours from rfl, hG]
    simp
  have key : ∀ y : Fin 3 → ℚ, (A.mulVec y) ⬝ᵥ (A.mulVec β - b) = 0 := by
    intro y
    rw [Matrix.dotProduct_comm, Matrix.dotProduct_mulVec, ← Matrix.mulVec_transpose,
      hne, Matrix.zero_dotProduct]
  have hx : A.mulVec x - b = (A.mulVec (x - β)) + (A.mulVec β - b) := by
    rw [Matrix.mulVec_sub]; abel
  rw [hx]
  have h1 := key (x - β)
  simp only [Matrix.add_dotProduct, Matrix.dotProduct_add]
  rw [Matrix.dotProduct_comm (A.mulVec β - b) (A.mulVec (x - β))]
  rw [h1]
  ring

/-- The vector `lstsqNormal` minimises the residual sum of squares, so it is what
`np.linalg.lstsq` returns on the full-rank path: the embedding is faithful to
the least-squares contract. -/
theorem lstsqNormal_minimises (colours : List (Fin 3 → ℚ))
    (h : det3 (planeGram colours) ≠ 0) (x : Fin 3 → ℚ) :
    planeResidual colours (lstsqNormal colours) ≤ planeResidual colours x := by
  rw [planeResidual_expand colours h x]
  have hnonneg : 0 ≤ ((selMatrix colours).mulVec (x - lstsqNormal colours)) ⬝ᵥ
      ((selMatrix colours).mulVec (x - lstsqNormal colours)) :=
    Finset.sum_nonneg fun i _ => mul_self_nonneg _
  linarith

/-- On the full-rank path the least-squares minimiser is unique, so
`lstsqNormal` is exactly what `np.linalg.lstsq` returns there: any other
minimiser coincides with it. -/
theorem lstsqNormal_unique (colours : List (Fin 3 → ℚ))
    (h : det3 (planeGram colours) ≠ 0) (x : Fin 3 → ℚ)
    (hx : ∀ y, planeResidual colours x ≤ planeResidual colours y) :
    x = lstsqNormal colours := by
  have heq : planeResidual colours x = planeResidual colours (lstsqNormal colours) :=
    le_antisymm (hx (lstsqNormal colours)) (lstsqNormal_minimises colours h x)
  have hzero : ((selMatrix colours).mulVec (x - lstsqNormal colours)) ⬝ᵥ
      ((selMatrix colours).mulVec (x - lstsqNormal colours)) = 0 := by
    have hexp := planeResidual_expand colours h x
    linarith [hexp, heq.le, heq.ge]
  have hAv : (selMatrix colours).mulVec (x - lstsqNormal colours) = 0 :=
    Matrix.dotProduct_self_eq_zero.mp hzero
  have hGv : (planeGram colours).mulVec (x - lstsqNormal colours) = 0 := by
    show ((selMatrix colours)ᵀ * selMatrix colours).mulVec (x - lstsqNormal colours) = 0
    rw [← Matrix.mulVec_mulVec, hAv, Matrix.mulVec_zero]
  have hinv2 : ((det3 (planeGram colours))⁻¹ • adj3 (planeGram colours)) *
      planeGram colours = 1 := by
    have hdet : (planeGram colours).det ≠ 0 := by rwa [det3_eq] at h
    rw [adj3_eq, det3_eq, Matrix.smul_mul, Matrix.adjugate_mul, smul_smul,
      inv_mul_cancel₀ hdet, one_smul]
  have hsub : x - lstsqNormal colours = 0 := by
    calc x - lstsqNormal colours
        = (1 : Matrix (Fin 3) (Fin 3) ℚ).mulVec (x - lstsqNormal colours) :=
          (Matrix.one_mulVec _).symm
      _ = (((det3 (planeGram colours))⁻¹ • adj3 (planeGram colours)) *
            planeGram colours).mulVec (x - lstsqNormal colours) := by rw [hinv2]
      _ = ((det3 (planeGram colours))⁻¹ • adj3 (planeGram colours)).mulVec
            ((planeGram colours).mulVec (x - lstsqNormal colours)) := by
          rw [Matrix.mulVec_mulVec]
      _ = 0 := by rw [hGv, Matrix.mulVec_zero]
  exact sub_eq_zero.mp hsub

/-- Over the rationals, a 3 x 3 matrix has nonvanishing determinant exactly
when its rank is 3.  Bridges the executable determinant test to the rank that
`np.linalg.lstsq` reports. -/
theorem det_ne_zero_iff_rank_eq_three {M : Matrix (Fin 3) (Fin 3) ℚ} :
    M.det ≠ 0 ↔ M.rank = 3 := by
  constructor
  · intro h
    have hu : IsUnit M := (Matrix.isUnit_iff_isUnit_det M).mpr (isUnit_iff_ne_zero.mpr h)
    simpa using Matrix.rank_of_isUnit M hu
  · intro hr hdet
    obtain ⟨v, hv, hMv⟩ := Matrix.exists_mulVec_eq_zero_iff.mpr hdet
    have hrange : Module.finrank ℚ (LinearMap.range M.mulVecLin) = 3 := hr
    have hdim : Module.finrank ℚ (Fin 3 → ℚ) = 3 := by
      simp [Module.finrank_pi]
    have hsurj : Function.Surjective M.mulVecLin := by
      rw [← LinearMap.range_eq_top]
      exact Submodule.eq_top_of_finrank_eq (hrange.trans hdim.symm)
    have hinj : Function.Injective M.mulVecLin :=
      LinearMap.injective_iff_surjective.mpr hsurj
    apply hv
    have h0 : M.mulVecLin v = M.mulVecLin 0 := by
      simp [Matrix.mulVecLin_apply, hMv]
    exact hinj h0

/-- The Gram determinant of an m x 3 rational matrix is nonzero exactly when
the matrix has full column rank 3. -/
theorem gram_det_ne_zero_iff_rank {m : ℕ} (A : Matrix (Fin m) (Fin 3) ℚ) :
    (Aᵀ * A).det ≠ 0 ↔ A.rank = 3 := by
  rw [det_ne_zero_iff_rank_eq_three, Matrix.rank_transpose_mul_self]

/-- A nonzero real 3-vector divided by its magnitude has magnitude 1. -/
theorem magnitude_normalised {v : Fin 3 → ℝ} (hv : v ≠ 0) :
    magnitude (fun i => v i / magnitude v) = 1 := by
  have hdot : 0 < v ⬝ᵥ v := by
    rcases lt_or_eq_of_le (Finset.sum_nonneg fun i _ => mul_self_nonneg (v i) :
      (0:ℝ) ≤ v ⬝ᵥ v) with h | h
    · exact h
    · exact absurd (Matrix.dotProduct_self_eq_zero.mp h.symm) hv
  set m := magnitude v with hm
  have hmag : m * m = v ⬝ᵥ v := Real.mul_self_sqrt hdot.le
  have hexp : ((fun i => v i / m) ⬝ᵥ fun i => v i / m) =
      (v ⬝ᵥ v) / (m * m) := by
    simp only [Matrix.dotProduct, div_mul_div_comm, ← Finset.sum_div]
  show magnitude (fun i => v i / m) = 1
  unfold magnitude
  rw [hexp, hmag, div_self hdot.ne.symm, Real.sqrt_one]

/-- C4: contract of the plane fitter.  Under the side condition that the
unnormalised least-squares solution is nonzero (so that the final
normalisation divides by a nonzero magnitude), `fit_plane` raises the
degenerate-fit error exactly when the least-squares system over the selected
points has rank below 3, and on success the returned normal has magnitude
exactly 1 (hence within 1e-9 of 1) while the returned right-hand side is the
offset-corrected value `target - offset * Σ normal` divided by the same
normalisation factor as the normal. -/
theorem fit_plane_contract (colours : List (Fin 3 → ℚ))
    (hnz : lstsqNormal colours ≠ 0) :
    ((∃ e, fit_plane colours = .error e) ↔ (selMatrix colours).rank < 3) ∧
    (∀ p, fit_plane colours = .ok p →
      magnitude p.normal = 1 ∧
      p.normal = (fun i => rawNormal colours i / magnitude (rawNormal colours)) ∧
      p.rhs = (correctedRhs colours : ℝ) / magnitude (rawNormal colours)) := by
  have hbridge : det3 (planeGram colours) ≠ 0 ↔ (selMatrix colours).rank = 3 := by
    rw [det3_eq]
    exact gram_det_ne_zero_iff_rank (selMatrix colours)
  have hle : (selMatrix colours).rank ≤ 3 := by
    simpa using (selMatrix colours).rank_le_card_width
  have hraw : rawNormal colours ≠ 0 := by
    intro h0
    apply hnz
    funext i
    have hi := congrFun h0 i
    simpa [rawNormal] using hi
  constructor
  · constructor
    · intro ⟨e, he⟩
      by_contra hlt
      have hr3 : (selMatrix colours).rank = 3 := le_antisymm hle (by omega)
      have hdet := hbridge.mpr hr3
      unfold fit_plane at he
      rw [if_neg hdet] at he
      exact absurd he (by simp)
    · intro hlt
      have hdet : det3 (planeGram colours) = 0 := by
        by_contra hd
        have := hbridge.mp hd
        omega
      exact ⟨"Deficient rank", by unfold fit_plane; rw [if_pos hdet]⟩
  · intro p hp
    unfold fit_plane at hp
    by_cases hdet : det3 (planeGram colours) = 0
    · rw [if_pos hdet] at hp
      exact absurd hp (by simp)
    · rw [if_neg hdet] at hp
      have hp2 : p = { normal := fun i => rawNormal colours i / magnitude (rawNormal colours)
                       rhs := (correctedRhs colours : ℝ) / magnitude (rawNormal colours) } := by
        exact (Except.ok.injEq _ _).mp hp.symm
      subst hp2
      exact ⟨magnitude_normalised hraw, rfl, rfl⟩

/-- The selected rows of the witness table, after the offset, are the three
standard basis vectors followed by two zero rows. -/
theorem fitPlaneWitness_sel :
    selMatrix fitPlaneWitnessColours =
      Matrix.of ![![1,0,0],![0,1,0],![0,0,1],![0,0,0],![0,0,0]] := by
  ext i j
  fin_cases i <;> fin_cases j <;> norm_num [selMatrix, sel, fitPlaneWitnessColours, offset]

/-- The Gram matrix of the witness table is the identity. -/
theorem fitPlaneWitness_gram : planeGram fitPlaneWitnessColours = 1 := by
  unfold planeGram
  rw [fitPlaneWitness_sel]
  ext i j
  fin_cases i <;> fin_cases j <;>
    norm_num [Matrix.mul_apply, Fin.sum_univ_five, Matrix.one_apply,
      Matrix.transpose_apply, Matrix.cons_val_zero, Matrix.cons_val_one,
      Matrix.vecHead, Matrix.vecTail, Matrix.cons_val_succ, Fin.ext_iff]

theorem fitPlaneWitness_det : det3 (planeGram fitPlaneWitnessColours) ≠ 0 := by
  rw [fitPlaneWitness_gram]
  norm_num [det3, Matrix.one_apply, Fin.ext_iff]

/-- The unnormalised least-squares normal of the witness table is nonzero:
were it zero, the normal equations would force the (nonzero) right-hand side
to vanish. -/
theorem fitPlaneWitness_nz : lstsqNormal fitPlaneWitnessColours ≠ 0 := by
  intro h0
  have h1 := lstsqNormal_normal_equations fitPlaneWitnessColours fitPlaneWitness_det
  rw [h0, Matrix.mulVec_zero] at h1
  have h2 := congrFun h1 0
  rw [fitPlaneWitness_sel] at h2
  norm_num [Matrix.mulVec, Matrix.dotProduct, Fin.sum_univ_five, selTarget, targetValue,
    Matrix.transpose_apply, Matrix.cons_val_zero, Matrix.cons_val_one,
    Matrix.vecHead, Matrix.vecTail, Matrix.cons_val_succ] at h2

/-- Witness for C4 at the concrete 19-row table. -/
theorem fit_plane_contract_witness :
    lstsqNormal fitPlaneWitnessColours ≠ 0 ∧
    (((∃ e, fit_plane fitPlaneWitnessColours = .error e) ↔
        (selMatrix fitPlaneWitnessColours).rank < 3) ∧
      (∀ p, fit_plane fitPlaneWitnessColours = .ok p →
        magnitude p.normal = 1 ∧
        p.normal = (fun i => rawNormal fitPlaneWitnessColours i /
          magnitude (rawNormal fitPlaneWitnessColours)) ∧
        p.rhs = (correctedRhs fitPlaneWitnessColours : ℝ) /
          magnitude (rawNormal fitPlaneWitnessColours))) :=
  ⟨fitPlaneWitness_nz, fit_plane_contract fitPlaneWitnessColours fitPlaneWitness_nz⟩

/-- C10: plane-fit noninterference.  `fit_plane` reads only the colour rows
at the fixed selected indices 0, 6, 12, 18 and the last row; two colour
tables of equal (valid) length that agree on those five rows produce
identical outcomes - the same raised error or the same fitted plane -
whatever the other rows hold. -/
theorem fit_plane_noninterference (c1 c2 : List (Fin 3 → ℚ))
    (hlen : c1.length = c2.length) (hge : 19 ≤ c1.length)
    (h0 : c1.getD 0 0 = c2.getD 0 0)
    (h6 : c1.getD 6 0 = c2.getD 6 0)
    (h12 : c1.getD 12 0 = c2.getD 12 0)
    (h18 : c1.getD 18 0 = c2.getD 18 0)
    (hlast : c1.getD (c1.length - 1) 0 = c2.getD (c2.length - 1) 0) :
    fit_plane c1 = fit_plane c2 := by
  have hrow : ∀ k : Fin 5,
      c1.getD ((sel c1.length).getD k.1 0) 0 = c2.getD ((sel c2.length).getD k.1 0) 0 := by
    intro k
    fin_cases k
    · exact h0
    · exact h6
    · exact h12
    · exact h18
    · exact hlast
  have hsel : selMatrix c1 = selMatrix c2 := by
    ext i j
    simp only [selMatrix, Matrix.of_apply]
    rw [hrow i]
  have hgram : planeGram c1 = planeGram c2 := by
    unfold planeGram; rw [hsel]
  have hnorm : lstsqNormal c1 = lstsqNormal c2 := by
    unfold lstsqNormal; rw [hgram, hsel]
  have hrhs : correctedRhs c1 = correctedRhs c2 := by
    unfold correctedRhs; rw [hnorm]
  have hraw2 : rawNormal c1 = rawNormal c2 := by
    unfold rawNormal; rw [hnorm]
  unfold fit_plane
  rw [hgram, hrhs, hraw2]

/-- Witness for C10 at the two concrete 19-row tables. -/
theorem fit_plane_noninterference_witness :
    (fitPlaneWitnessColours.length = noninterfVariant.length ∧
      19 ≤ fitPlaneWitnessColours.length ∧
      fitPlaneWitnessColours.getD 0 0 = noninterfVariant.getD 0 0 ∧
      fitPlaneWitnessColours.getD 6 0 = noninterfVariant.getD 6 0 ∧
      fitPlaneWitnessColours.getD 12 0 = noninterfVariant.getD 12 0 ∧
      fitPlaneWitnessColours.getD 18 0 = noninterfVariant.getD 18 0 ∧
      fitPlaneWitnessColours.getD (fitPlaneWitnessColours.length - 1) 0 =
        noninterfVariant.getD (noninterfVariant.length - 1) 0) ∧
    fit_plane fitPlaneWitnessColours = fit_plane noninterfVariant :=
  ⟨⟨rfl, by decide, rfl, rfl, rfl, rfl, rfl⟩,
   fit_plane_noninterference fitPlaneWitnessColours noninterfVariant
     rfl (by decide) rfl rfl rfl rfl rfl⟩

/-- The reference point `(rhs/normal[0], 0, 0)` dotted with the normal gives
back `rhs`. -/
theorem refPoint_dot (normal : Fin 3 → ℚ) (rhs : ℚ) (hn0 : normal 0 ≠ 0) :
    (![rhs / normal 0, 0, 0] : Fin 3 → ℚ) ⬝ᵥ normal = rhs := by
  simp [Matrix.dotProduct, Fin.sum_univ_three]
  field_simp

/-- C6: perpendicular projection fixes the plane pointwise and is idempotent.
For a unit normal whose red component is nonzero, a colour already on the
plane (`colour ⬝ normal = rhs`) is returned unchanged, and projecting an
already projected point returns it unchanged. -/
theorem project_irregular_idempotent (colour normal : Fin 3 → ℚ) (rhs : ℚ)
    (hunit : normal ⬝ᵥ normal = 1) (hn0 : normal 0 ≠ 0) :
    (colour ⬝ᵥ normal = rhs → project_irregular colour normal rhs = colour) ∧
    project_irregular (project_irregular colour normal rhs) normal rhs =
      project_irregular colour normal rhs := by
  have hdirn : (fun i => normal i / (normal ⬝ᵥ normal)) = normal := by
    funext i; rw [hunit, div_one]
  have hproj : ∀ c : Fin 3 → ℚ, project_irregular c normal rhs =
      ![rhs / normal 0, 0, 0] + (c - ![rhs / normal 0, 0, 0]) -
        ((c - ![rhs / normal 0, 0, 0]) ⬝ᵥ normal) • normal := by
    intro c; unfold project_irregular; rw [hdirn]
  have hfix : ∀ c : Fin 3 → ℚ, c ⬝ᵥ normal = rhs →
      project_irregular c normal rhs = c := by
    intro c hc
    rw [hproj c]
    have hs : (c - ![rhs / normal 0, 0, 0]) ⬝ᵥ normal = 0 := by
      rw [Matrix.sub_dotProduct, hc, refPoint_dot normal rhs hn0, sub_self]
    rw [hs, zero_smul, sub_zero]
    abel
  have honplane : (project_irregular colour normal rhs) ⬝ᵥ normal = rhs := by
    rw [hproj colour]
    rw [Matrix.sub_dotProduct, Matrix.add_dotProduct, Matrix.smul_dotProduct,
      refPoint_dot normal rhs hn0, hunit]
    simp [smul_eq_mul]
  exact ⟨hfix colour, hfix _ honplane⟩

/-- Witness for C6: the unit normal `(1,0,0)` and a point on the plane
`red = 1/2`. -/
theorem project_irregular_idempotent_witness :
    ((![1, 0, 0] : Fin 3 → ℚ) ⬝ᵥ ![1, 0, 0] = 1 ∧ (![1, 0, 0] : Fin 3 → ℚ) 0 ≠ 0) ∧
    (((![1/2, 7, 9] : Fin 3 → ℚ) ⬝ᵥ ![1, 0, 0] = 1/2 →
        project_irregular ![1/2, 7, 9] ![1, 0, 0] (1/2) = ![1/2, 7, 9]) ∧
      project_irregular (project_irregular ![1/2, 7, 9] ![1, 0, 0] (1/2)) ![1, 0, 0] (1/2) =
        project_irregular ![1/2, 7, 9] ![1, 0, 0] (1/2)) :=
  ⟨⟨by norm_num [Matrix.dotProduct, Fin.sum_univ_three], by norm_num⟩,
   project_irregular_idempotent ![1/2, 7, 9] ![1, 0, 0] (1/2)
     (by norm_num [Matrix.dotProduct, Fin.sum_univ_three]) (by norm_num)⟩

/-- C7: the grid rasteriser solves the plane equation exactly for red and
clips the field into `[0, 255]`.  Every returned value lies in `[0, 255]`;
the red channel is the clipped exact solution while green and blue are the
(unclipped, already in-range) grid coordinates; and the unclipped solved red
satisfies the plane equation `point ⬝ normal = rhs` exactly. -/
theorem project_grid_spec (normal : Fin 3 → ℚ) (rhs : ℚ) (hn0 : normal 0 ≠ 0) :
    (∀ i j ch, 0 ≤ project_grid normal rhs i j ch ∧
      project_grid normal rhs i j ch ≤ 255) ∧
    (∀ i j, project_grid normal rhs i j 0 = clip255 (solvedRed normal rhs i j) ∧
      project_grid normal rhs i j 1 = channel j ∧
      project_grid normal rhs i j 2 = channel i) ∧
    (∀ i j, (![solvedRed normal rhs i j, channel j, channel i] : Fin 3 → ℚ) ⬝ᵥ
      normal = rhs) := by
  have hchan : ∀ k : Fin 52, 0 ≤ channel k ∧ channel k ≤ 255 := by
    intro k
    unfold channel
    constructor
    · positivity
    · have hk : (k.1 : ℚ) ≤ 51 := by
        have := k.isLt
        exact_mod_cast Nat.lt_succ_iff.mp (by omega)
      linarith
  have hclip_id : ∀ x : ℚ, 0 ≤ x → x ≤ 255 → clip255 x = x := by
    intro x h1 h2
    unfold clip255
    rw [max_eq_left h1, min_eq_left h2]
  refine ⟨?_, ?_, ?_⟩
  · intro i j ch
    unfold project_grid clip255
    constructor
    · exact le_min (le_max_right _ _) (by norm_num)
    · exact min_le_right _ _
  · intro i j
    refine ⟨rfl, ?_, ?_⟩
    · show clip255 (ggbb i j 0) = channel j
      exact hclip_id _ (hchan j).1 (hchan j).2
    · show clip255 (ggbb i j 1) = channel i
      exact hclip_id _ (hchan i).1 (hchan i).2
  · intro i j
    simp only [Matrix.dotProduct, Fin.sum_univ_three, Fin.sum_univ_two,
      solvedRed, ggbb, channel, Matrix.cons_val_zero, Matrix.cons_val_one,
      Matrix.head_cons]
    field_simp
    ring

/-- Witness for C7: the plane `red = 100`. -/
theorem project_grid_spec_witness :
    (![1, 0, 0] : Fin 3 → ℚ) 0 ≠ 0 ∧
    ((∀ i j ch, 0 ≤ project_grid ![1, 0, 0] 100 i j ch ∧
        project_grid ![1, 0, 0] 100 i j ch ≤ 255) ∧
      (∀ i j, project_grid ![1, 0, 0] 100 i j 0 =
          clip255 (solvedRed ![1, 0, 0] 100 i j) ∧
        project_grid ![1, 0, 0] 100 i j 1 = channel j ∧
        project_grid ![1, 0, 0] 100 i j 2 = channel i) ∧
      (∀ i j, (![solvedRed ![1, 0, 0] 100 i j, channel j, channel i] : Fin 3 → ℚ) ⬝ᵥ
        ![1, 0, 0] = 100)) :=
  ⟨by norm_num, project_grid_spec ![1, 0, 0] 100 (by norm_num)⟩

/-- Index of the variable holding coordinate `k` of sample `i`
(`u` block first, then the `v` block). -/
theorem uvIndex_lt {n : ℕ} (k : Fin 2) (i : Fin n) : 8 + k.1 * n + i.1 < 8 + 2*n := by
  have hk := k.isLt
  have hi := i.isLt
  have : k.1 * n ≤ 1 * n := Nat.mul_le_mul_right n (by omega)
  omega

/-- C1: box-constraint satisfaction.  Every feasible solver output - in
particular the output of every successful `fit_project_linprog` run - places
every projected sample coordinate inside the closed unit interval, so every
`(u, v)` row of the returned point matrix lies in the unit square. -/
theorem fit_project_linprog_box {n : ℕ} (colours : Fin n → Fin 3 → ℚ)
    (x : Fin (8+2*n) → ℚ) (hx : feasibleSolution colours x) (i : Fin n) (k : Fin 2) :
    0 ≤ (fit_project_linprog x).2 i k ∧ (fit_project_linprog x).2 i k ≤ 1 := by
  obtain ⟨hb, -⟩ := hx
  have h := hb ⟨8 + k.1 * n + i.1, uvIndex_lt k i⟩
  have hc : ¬ (8 + k.1 * n + i.1 < 8) := by omega
  constructor
  · have h1 := h.1 0
    simp only [lowerBound, if_neg hc, Option.mem_def, Option.some.injEq] at h1
    exact h1 trivial
  · have h2 := h.2 1
    simp only [upperBound, if_neg hc, Option.mem_def, Option.some.injEq] at h2
    exact h2 trivial

theorem lpWitness_feasible : feasibleSolution lpWitnessColours (0 : Fin (8+2*1) → ℚ) := by
  constructor
  · intro c
    constructor
    · intro q hq
      by_cases h : c.1 < 8
      · simp [lowerBound, h] at hq
      · simp only [lowerBound, if_neg h, Option.mem_def, Option.some.injEq] at hq
        subst hq
        simp
    · intro q hq
      by_cases h : c.1 < 8
      · simp [upperBound, h] at hq
      · simp only [upperBound, if_neg h, Option.mem_def, Option.some.injEq] at hq
        subst hq
        norm_num
  · intro r
    rw [Matrix.mulVec_zero]
    rfl

/-- Witness for C1 at the one-sample zero solution. -/
theorem fit_project_linprog_box_witness :
    feasibleSolution lpWitnessColours (0 : Fin (8+2*1) → ℚ) ∧
    (0 ≤ (fit_project_linprog (0 : Fin (8+2*1) → ℚ)).2 0 0 ∧
      (fit_project_linprog (0 : Fin (8+2*1) → ℚ)).2 0 0 ≤ 1) :=
  ⟨lpWitness_feasible,
   fit_project_linprog_box lpWitnessColours 0 lpWitness_feasible 0 0⟩

/-- In the first 8 columns the constraint matrix is the block diagonal. -/
theorem constraintMat_castAdd {n : ℕ} (colours : Fin n → Fin 3 → ℚ)
    (r : Fin (2*n)) (c : Fin 8) :
    constraintMat colours r (Fin.castAdd (2*n) c) = blockDiag2 colours r c := by
  have hc : (Fin.castAdd (2*n) c).1 < 8 := c.isLt
  simp only [constraintMat, Matrix.of_apply, dif_pos hc]
  rfl

/-- In the last 2n columns the constraint matrix is the negated identity. -/
theorem constraintMat_natAdd {n : ℕ} (colours : Fin n → Fin 3 → ℚ)
    (r t : Fin (2*n)) :
    constraintMat colours r (Fin.natAdd 8 t) = if t = r then -1 else 0 := by
  have hc : ¬ (Fin.natAdd 8 t).1 < 8 := by
    show ¬ 8 + t.1 < 8
    omega
  simp only [constraintMat, Matrix.of_apply, dif_neg hc]
  by_cases h : t = r
  · subst h
    rw [if_pos (show (Fin.natAdd 8 t).1 - 8 = t.1 from by show 8 + t.1 - 8 = t.1; omega),
      if_pos rfl]
  · rw [if_neg, if_neg h]
    intro heq
    apply h
    apply Fin.ext
    have h8 : (Fin.natAdd 8 t).1 = 8 + t.1 := rfl
    omega

/-- The block-diagonal rows below `n` read the first affine copy. -/
theorem blockDiag2_u {n : ℕ} (colours : Fin n → Fin 3 → ℚ) (i : Fin n)
    (hlt : i.1 < 2*n) (c : Fin 8) :
    blockDiag2 colours ⟨i.1, hlt⟩ c =
      if c.1 < 4 then affineEntry colours i c.1 else 0 := by
  simp only [blockDiag2, Matrix.of_apply]
  rw [dif_pos (show (⟨i.1, hlt⟩ : Fin (2*n)).1 < n from i.isLt)]

/-- The block-diagonal rows from `n` on read the second affine copy. -/
theorem blockDiag2_v {n : ℕ} (colours : Fin n → Fin 3 → ℚ) (i : Fin n)
    (hlt : n + i.1 < 2*n) (c : Fin 8) :
    blockDiag2 colours ⟨n + i.1, hlt⟩ c =
      if 4 ≤ c.1 then affineEntry colours i (c.1 - 4) else 0 := by
  simp only [blockDiag2, Matrix.of_apply]
  rw [dif_neg (show ¬ (⟨n + i.1, hlt⟩ : Fin (2*n)).1 < n from by
    have := i.isLt; show ¬ n + i.1 < n; omega)]
  simp only [Nat.add_sub_cancel_left]

/-- One equality-constraint row: the block-diagonal part of row `r` applied
to `x` equals the projected-coordinate variable of row `r`. -/
theorem constraint_row {n : ℕ} (colours : Fin n → Fin 3 → ℚ)
    (x : Fin (8+2*n) → ℚ) (hcon : satisfiesConstraints colours x) (r : Fin (2*n)) :
    (∑ c : Fin 8, blockDiag2 colours r c * x (Fin.castAdd (2*n) c)) =
      x (Fin.natAdd 8 r) := by
  have hr := hcon r
  simp only [Matrix.mulVec, Matrix.dotProduct] at hr
  rw [Fin.sum_univ_add] at hr
  have h2 : (∑ t : Fin (2*n),
      constraintMat colours r (Fin.natAdd 8 t) * x (Fin.natAdd 8 t)) =
      constraintMat colours r (Fin.natAdd 8 r) * x (Fin.natAdd 8 r) :=
    Fintype.sum_eq_single _ (fun t ht => by
      rw [constraintMat_natAdd, if_neg ht, zero_mul])
  rw [h2, constraintMat_natAdd, if_pos rfl] at hr
  simp only [constraintMat_castAdd] at hr
  linarith [hr]

/-- The u-row block sum written out as the four affine products. -/
theorem blockSum_u {n : ℕ} (colours : Fin n → Fin 3 → ℚ)
    (x : Fin (8+2*n) → ℚ) (i : Fin n) (hlt : i.1 < 2*n) :
    (∑ c : Fin 8, blockDiag2 colours ⟨i.1, hlt⟩ c * x (Fin.castAdd (2*n) c)) =
      affineEntry colours i 0 * x (Fin.castAdd (2*n) 0) +
      affineEntry colours i 1 * x (Fin.castAdd (2*n) 1) +
      affineEntry colours i 2 * x (Fin.castAdd (2*n) 2) +
      affineEntry colours i 3 * x (Fin.castAdd (2*n) 3) := by
  rw [Fin.sum_univ_eight]
  simp only [blockDiag2_u]
  rw [if_pos (by decide : ((0 : Fin 8) : ℕ) < 4),
    if_pos (by decide : ((1 : Fin 8) : ℕ) < 4),
    if_pos (by decide : ((2 : Fin 8) : ℕ) < 4),
    if_pos (by decide : ((3 : Fin 8) : ℕ) < 4),
    if_neg (by decide : ¬ ((4 : Fin 8) : ℕ) < 4),
    if_neg (by decide : ¬ ((5 : Fin 8) : ℕ) < 4),
    if_neg (by decide : ¬ ((6 : Fin 8) : ℕ) < 4),
    if_neg (by decide : ¬ ((7 : Fin 8) : ℕ) < 4)]
  rw [show ((0 : Fin 8) : ℕ) = 0 from rfl, show ((1 : Fin 8) : ℕ) = 1 from rfl,
    show ((2 : Fin 8) : ℕ) = 2 from rfl, show ((3 : Fin 8) : ℕ) = 3 from rfl]
  ring

/-- The v-row block sum written out as the four affine products. -/
theorem blockSum_v {n : ℕ} (colours : Fin n → Fin 3 → ℚ)
    (x : Fin (8+2*n) → ℚ) (i : Fin n) (hlt : n + i.1 < 2*n) :
    (∑ c : Fin 8, blockDiag2 colours ⟨n + i.1, hlt⟩ c * x (Fin.castAdd (2*n) c)) =
      affineEntry colours i 0 * x (Fin.castAdd (2*n) 4) +
      affineEntry colours i 1 * x (Fin.castAdd (2*n) 5) +
      affineEntry colours i 2 * x (Fin.castAdd (2*n) 6) +
      affineEntry colours i 3 * x (Fin.castAdd (2*n) 7) := by
  rw [Fin.sum_univ_eight]
  simp only [blockDiag2_v]
  rw [if_neg (by decide : ¬ 4 ≤ ((0 : Fin 8) : ℕ)),
    if_neg (by decide : ¬ 4 ≤ ((1 : Fin 8) : ℕ)),
    if_neg (by decide : ¬ 4 ≤ ((2 : Fin 8) : ℕ)),
    if_neg (by decide : ¬ 4 ≤ ((3 : Fin 8) : ℕ)),
    if_pos (by decide : 4 ≤ ((4 : Fin 8) : ℕ)),
    if_pos (by decide : 4 ≤ ((5 : Fin 8) : ℕ)),
    if_pos (by decide : 4 ≤ ((6 : Fin 8) : ℕ)),
    if_pos (by decide : 4 ≤ ((7 : Fin 8) : ℕ))]
  rw [show ((4 : Fin 8) : ℕ) - 4 = 0 from rfl, show ((5 : Fin 8) : ℕ) - 4 = 1 from rfl,
    show ((6 : Fin 8) : ℕ) - 4 = 2 from rfl, show ((7 : Fin 8) : ℕ) - 4 = 3 from rfl]
  ring

/-- C2: exact equality of projection and projected points.  For every
feasible solver output - in particular for every successful run - the
homogeneous product `[r, g, b, 1] . P` of each sample with the returned
projection matrix equals the returned `(u, v)` pair of that sample: the
block-diagonal equality constraints tie the two together with zero
difference. -/
theorem fit_project_linprog_exact {n : ℕ} (colours : Fin n → Fin 3 → ℚ)
    (x : Fin (8+2*n) → ℚ) (hx : feasibleSolution colours x)
    (i : Fin n) (k : Fin 2) :
    ((affineMat colours) * (fit_project_linprog x).1) i k =
      (fit_project_linprog x).2 i k := by
  obtain ⟨-, hcon⟩ := hx
  fin_cases k
  · have hlt : i.1 < 2*n := by have := i.isLt; omega
    have h1 := constraint_row colours x hcon ⟨i.1, hlt⟩
    rw [blockSum_u colours x i hlt] at h1
    rw [Matrix.mul_apply, Fin.sum_univ_four]
    rw [show x (Fin.natAdd 8 ⟨i.1, hlt⟩) = projectedOf x i 0 from
      congrArg x (Fin.ext (show 8 + i.1 = 8 + ((0 : Fin 2) : ℕ) * n + i.1 from by
        simp only [Fin.val_zero, zero_mul]; omega))] at h1
    exact h1
  · have hlt : n + i.1 < 2*n := by have := i.isLt; omega
    have h1 := constraint_row colours x hcon ⟨n + i.1, hlt⟩
    rw [blockSum_v colours x i hlt] at h1
    rw [Matrix.mul_apply, Fin.sum_univ_four]
    rw [show x (Fin.natAdd 8 ⟨n + i.1, hlt⟩) = projectedOf x i 1 from
      congrArg x (Fin.ext (show 8 + (n + i.1) = 8 + ((1 : Fin 2) : ℕ) * n + i.1 from by
        simp only [Fin.val_one, one_mul]; omega))] at h1
    exact h1

/-- Witness for C2 at the one-sample zero solution. -/
theorem fit_project_linprog_exact_witness :
    feasibleSolution lpWitnessColours (0 : Fin (8+2*1) → ℚ) ∧
    ((affineMat lpWitnessColours) *
        (fit_project_linprog (0 : Fin (8+2*1) → ℚ)).1) 0 0 =
      (fit_project_linprog (0 : Fin (8+2*1) → ℚ)).2 0 0 :=
  ⟨lpWitness_feasible,
   fit_project_linprog_exact lpWitnessColours 0 lpWitness_feasible 0 0⟩

theorem applyUpdates_of_ne {γ α β : Type*} [DecidableEq α] (g : γ → α) (v : γ → β)
    (l : List γ) (f : α → β) (a : α) (ha : ∀ c ∈ l, g c ≠ a) :
    applyUpdates g v l f a = f a := by
  induction l generalizing f with
  | nil => rfl
  | cons d t ih =>
    show applyUpdates g v t (Function.update f (g d) (v d)) a = f a
    rw [ih (Function.update f (g d) (v d)) (fun c hc => ha c (List.mem_cons_of_mem d hc))]
    exact Function.update_noteq (Ne.symm (ha d (List.mem_cons_self d t))) _ _

theorem applyUpdates_eval {γ α β : Type*} [DecidableEq α] (g : γ → α) (v : γ → β)
    (l : List γ) (f : α → β) (c : γ) (hc : c ∈ l) (hnd : l.Nodup)
    (hinj : ∀ a ∈ l, ∀ b ∈ l, g a = g b → a = b) :
    applyUpdates g v l f (g c) = v c := by
  induction l generalizing f with
  | nil => cases hc
  | cons d t ih =>
    show applyUpdates g v t (Function.update f (g d) (v d)) (g c) = v c
    rcases List.mem_cons.mp hc with h | h
    · subst h
      have hne : ∀ e ∈ t, g e ≠ g c := by
        intro e he hge
        have hec : e = c := hinj e (List.mem_cons_of_mem c he) c (List.mem_cons_self c t) hge
        subst hec
        exact (List.nodup_cons.mp hnd).1 he
      rw [applyUpdates_of_ne g v t _ (g c) hne]
      simp
    · exact ih (Function.update f (g d) (v d)) h (List.nodup_cons.mp hnd).2
        (fun a ha b hb => hinj a (List.mem_cons_of_mem d ha) b (List.mem_cons_of_mem d hb))

theorem uCostIndex_inj {n : ℕ} {p q : Fin n} (h : uCostIndex p = uCostIndex q) :
    p = q := by
  have hv := congrArg Fin.val h
  simp only [uCostIndex] at hv
  exact Fin.ext (by omega)

theorem vCostIndex_inj {n : ℕ} {p q : Fin n} (h : vCostIndex p = vCostIndex q) :
    p = q := by
  have hv := congrArg Fin.val h
  simp only [vCostIndex] at hv
  exact Fin.ext (by omega)

theorem uCostIndex_ne_vCostIndex {n : ℕ} (p q : Fin n) :
    uCostIndex p ≠ vCostIndex q := by
  intro h
  have hv := congrArg Fin.val h
  simp only [uCostIndex, vCostIndex] at hv
  have := p.isLt
  omega

/-- C5: the objective vector.  Under a valid corner assignment (distinct
anchor indices, binary target coordinates), the cost vector assigns to each
anchor coefficient `+1` on its u (resp. v) variable when the target
coordinate is 0 and `-1` when it is 1, and assigns 0 to all 8 affine-matrix
variables and to both coordinates of every non-anchor sample. -/
theorem fit_project_linprog_cost {n : ℕ} (corner_idx : Fin 4 → Fin n)
    (corner_targets : Fin 4 → Fin 2 → ℚ)
    (hinj : Function.Injective corner_idx)
    (hbin : ∀ c k, corner_targets c k = 0 ∨ corner_targets c k = 1) :
    (∀ c : Fin 4,
      costVec corner_idx corner_targets (uCostIndex (corner_idx c)) =
        (if corner_targets c 0 = 0 then 1 else -1) ∧
      costVec corner_idx corner_targets (vCostIndex (corner_idx c)) =
        (if corner_targets c 1 = 0 then 1 else -1)) ∧
    (∀ j : Fin 8, costVec corner_idx corner_targets (Fin.castAdd (2*n) j) = 0) ∧
    (∀ i : Fin n, (∀ c : Fin 4, corner_idx c ≠ i) →
      costVec corner_idx corner_targets (uCostIndex i) = 0 ∧
      costVec corner_idx corner_targets (vCostIndex i) = 0) := by
  have hval : ∀ c k, directions corner_targets k c =
      (if corner_targets c k = 0 then 1 else -1) := by
    intro c k
    rcases hbin c k with h | h <;> rw [h] <;> norm_num [directions, h]
  have huinj : ∀ a ∈ List.finRange 4, ∀ b ∈ List.finRange 4,
      uCostIndex (corner_idx a) = uCostIndex (corner_idx b) → a = b :=
    fun a _ b _ h => hinj (uCostIndex_inj h)
  have hvinj : ∀ a ∈ List.finRange 4, ∀ b ∈ List.finRange 4,
      vCostIndex (corner_idx a) = vCostIndex (corner_idx b) → a = b :=
    fun a _ b _ h => hinj (vCostIndex_inj h)
  refine ⟨fun c => ⟨?_, ?_⟩, fun j => ?_, fun i hni => ⟨?_, ?_⟩⟩
  · -- u entry of anchor c
    have t2 := applyUpdates_of_ne (fun d => vCostIndex (corner_idx d))
      (fun d => directions corner_targets 1 d) (List.finRange 4)
      (applyUpdates (fun d => uCostIndex (corner_idx d))
        (fun d => directions corner_targets 0 d) (List.finRange 4) (fun _ => 0))
      (uCostIndex (corner_idx c))
      (fun d _ h => uCostIndex_ne_vCostIndex (corner_idx c) (corner_idx d) h.symm)
    have t3 := applyUpdates_eval (fun d => uCostIndex (corner_idx d))
      (fun d => directions corner_targets 0 d) (List.finRange 4)
      (fun _ => 0) c (List.mem_finRange c) (List.nodup_finRange 4) huinj
    exact (t2.trans t3).trans (hval c 0)
  · -- v entry of anchor c
    have t2 := applyUpdates_eval (fun d => vCostIndex (corner_idx d))
      (fun d => directions corner_targets 1 d) (List.finRange 4)
      (applyUpdates (fun d => uCostIndex (corner_idx d))
        (fun d => directions corner_targets 0 d) (List.finRange 4) (fun _ => 0))
      c (List.mem_finRange c) (List.nodup_finRange 4) hvinj
    exact t2.trans (hval c 1)
  · -- the 8 affine-matrix variables have zero cost
    have hlt : (Fin.castAdd (2*n) j).1 < 8 := j.isLt
    have t2 := applyUpdates_of_ne (fun d => vCostIndex (corner_idx d))
      (fun d => directions corner_targets 1 d) (List.finRange 4)
      (applyUpdates (fun d => uCostIndex (corner_idx d))
        (fun d => directions corner_targets 0 d) (List.finRange 4) (fun _ => 0))
      (Fin.castAdd (2*n) j)
      (fun d _ h => by
        have hv := congrArg Fin.val h
        simp only [vCostIndex] at hv
        omega)
    have t3 := applyUpdates_of_ne (fun d => uCostIndex (corner_idx d))
      (fun d => directions corner_targets 0 d) (List.finRange 4)
      (fun _ => 0) (Fin.castAdd (2*n) j)
      (fun d _ h => by
        have hv := congrArg Fin.val h
        simp only [uCostIndex] at hv
        omega)
    exact t2.trans t3
  · -- u entry of a non-anchor sample
    have t2 := applyUpdates_of_ne (fun d => vCostIndex (corner_idx d))
      (fun d => directions corner_targets 1 d) (List.finRange 4)
      (applyUpdates (fun d => uCostIndex (corner_idx d))
        (fun d => directions corner_targets 0 d) (List.finRange 4) (fun _ => 0))
      (uCostIndex i)
      (fun d _ h => uCostIndex_ne_vCostIndex i (corner_idx d) h.symm)
    have t3 := applyUpdates_of_ne (fun d => uCostIndex (corner_idx d))
      (fun d => directions corner_targets 0 d) (List.finRange 4)
      (fun _ => 0) (uCostIndex i)
      (fun d _ h => hni d (uCostIndex_inj h))
    exact t2.trans t3
  · -- v entry of a non-anchor sample
    have t2 := applyUpdates_of_ne (fun d => vCostIndex (corner_idx d))
      (fun d => directions corner_targets 1 d) (List.finRange 4)
      (applyUpdates (fun d => uCostIndex (corner_idx d))
        (fun d => directions corner_targets 0 d) (List.finRange 4) (fun _ => 0))
      (vCostIndex i)
      (fun d _ h => hni d (vCostIndex_inj h))
    have t3 := applyUpdates_of_ne (fun d => uCostIndex (corner_idx d))
      (fun d => directions corner_targets 0 d) (List.finRange 4)
      (fun _ => 0) (vCostIndex i)
      (fun d _ h => uCostIndex_ne_vCostIndex (corner_idx d) i h)
    exact t2.trans t3

theorem demoCornerTargets_binary :
    ∀ c k, demoCornerTargets c k = 0 ∨ demoCornerTargets c k = 1 := by
  intro c k
  fin_cases c <;> fin_cases k <;> norm_num [demoCornerTargets]

/-- Witness for C5 with four anchor samples, identity anchor indexing and
the demo corner targets. -/
theorem fit_project_linprog_cost_witness :
    (Function.Injective (fun c : Fin 4 => c) ∧
      ∀ c k, demoCornerTargets c k = 0 ∨ demoCornerTargets c k = 1) ∧
    ((∀ c : Fin 4,
        costVec (fun c : Fin 4 => c) demoCornerTargets (uCostIndex c) =
          (if demoCornerTargets c 0 = 0 then 1 else -1) ∧
        costVec (fun c : Fin 4 => c) demoCornerTargets (vCostIndex c) =
          (if demoCornerTargets c 1 = 0 then 1 else -1)) ∧
      (∀ j : Fin 8,
        costVec (fun c : Fin 4 => c) demoCornerTargets (Fin.castAdd (2*4) j) = 0) ∧
      (∀ i : Fin 4, (∀ c : Fin 4, c ≠ i) →
        costVec (fun c : Fin 4 => c) demoCornerTargets (uCostIndex i) = 0 ∧
        costVec (fun c : Fin 4 => c) demoCornerTargets (vCostIndex i) = 0)) :=
  ⟨⟨fun a b h => h, demoCornerTargets_binary⟩,
   fit_project_linprog_cost (fun c : Fin 4 => c) demoCornerTargets
     (fun a b h => h) demoCornerTargets_binary⟩

/-- Any minimiser of a least-squares residual satisfies the normal
equations: this is the direction that makes `IsLstsqSol` the contract of
`np.linalg.lstsq`, whose returned matrix minimises the residual of every
column. -/
theorem normal_equations_of_minimiser {m k : ℕ} (A : Matrix (Fin m) (Fin k) ℚ)
    (b : Fin m → ℚ) (x : Fin k → ℚ)
    (hmin : ∀ y : Fin k → ℚ,
      (A.mulVec x - b) ⬝ᵥ (A.mulVec x - b) ≤ (A.mulVec y - b) ⬝ᵥ (A.mulVec y - b)) :
    Aᵀ.mulVec (A.mulVec x - b) = 0 := by
  funext i
  show Aᵀ.mulVec (A.mulVec x - b) i = 0
  set E := A.mulVec x - b with hE
  set g := Aᵀ.mulVec E i with hg
  set d : Fin k → ℚ := Pi.single i 1 with hd
  set s := A.mulVec d ⬝ᵥ A.mulVec d with hs
  have hs0 : 0 ≤ s :=
    Finset.sum_nonneg fun c _ => mul_self_nonneg _
  have hAdE : A.mulVec d ⬝ᵥ E = g := by
    rw [Matrix.dotProduct_comm, Matrix.dotProduct_mulVec, ← Matrix.mulVec_transpose]
    simp [hd, Matrix.dotProduct_single]
  have hkey : ∀ t : ℚ, 0 ≤ 2 * t * g + t^2 * s := by
    intro t
    have h1 := hmin (x + t • d)
    have hAd : A.mulVec (x + t • d) - b = E + t • A.mulVec d := by
      rw [Matrix.mulVec_add, Matrix.mulVec_smul, hE]
      abel
    rw [hAd] at h1
    have hexp : (E + t • A.mulVec d) ⬝ᵥ (E + t • A.mulVec d) =
        E ⬝ᵥ E + 2 * t * (A.mulVec d ⬝ᵥ E) + t^2 * s := by
      simp only [Matrix.add_dotProduct, Matrix.dotProduct_add,
        Matrix.smul_dotProduct, Matrix.dotProduct_smul, smul_eq_mul, hs]
      rw [Matrix.dotProduct_comm E (A.mulVec d)]
      ring
    rw [hexp, hAdE] at h1
    linarith
  have hspos : (0:ℚ) < s + 1 := by linarith
  have ht : (-g / (s + 1)) * (s + 1) = -g := by field_simp
  have h4 : 0 ≤ (2 * (-g / (s + 1)) * g + (-g / (s + 1))^2 * s) * ((s + 1) * (s + 1)) :=
    mul_nonneg (hkey (-g / (s + 1))) (by positivity)
  have h5 : (2 * (-g / (s + 1)) * g + (-g / (s + 1))^2 * s) * ((s + 1) * (s + 1)) =
      2 * ((-g / (s + 1)) * (s + 1)) * g * (s + 1) + ((-g / (s + 1)) * (s + 1))^2 * s := by
    ring
  rw [h5, ht] at h4
  have h7 : g^2 ≤ 0 := by nlinarith
  exact pow_eq_zero_iff (by norm_num) |>.mp (le_antisymm h7 (sq_nonneg g))

/-- Because `np.linalg.lstsq` on a matrix right-hand side minimises the residual of
every column independently; any columnwise minimiser satisfies the matrix
normal equations, so the matrix the antiprojection solve returns satisfies
`IsLstsqSol`. -/
theorem isLstsqSol_of_columnwise_minimiser (A b : Matrix (Fin 4) (Fin 3) ℚ)
    (X : Matrix (Fin 3) (Fin 3) ℚ)
    (hmin : ∀ ch : Fin 3, ∀ y : Fin 3 → ℚ,
      (A.mulVec (fun r => X r ch) - (fun c => b c ch)) ⬝ᵥ
          (A.mulVec (fun r => X r ch) - (fun c => b c ch)) ≤
        (A.mulVec y - (fun c => b c ch)) ⬝ᵥ (A.mulVec y - (fun c => b c ch))) :
    IsLstsqSol A b X := by
  unfold IsLstsqSol
  ext i ch
  have h := congrFun
    (normal_equations_of_minimiser A (fun c => b c ch) (fun r => X r ch) (hmin ch)) i
  simp only [Matrix.mulVec, Matrix.dotProduct, Pi.sub_apply, Pi.zero_apply] at h
  simp only [Matrix.mul_apply]
  rw [← sub_eq_zero, ← Finset.sum_sub_distrib]
  simp only [← mul_sub]
  exact h

theorem demoAntiSystem_eq :
    antiSystem demoAnchorProjected (fun c => c) =
      Matrix.of ![![0, 0, 1], ![0, 1, 1], ![1, 0, 1], ![1, 1, 1]] := by
  ext c j
  fin_cases c <;> fin_cases j <;>
    norm_num [antiSystem, demoAnchorProjected]

theorem demoAntiGram_eq :
    (antiSystem demoAnchorProjected (fun c => c))ᵀ *
      antiSystem demoAnchorProjected (fun c => c) =
      Matrix.of ![![2, 1, 2], ![1, 2, 2], ![2, 2, 4]] := by
  rw [demoAntiSystem_eq]
  ext i j
  fin_cases i <;> fin_cases j <;>
    norm_num [Matrix.mul_apply, Fin.sum_univ_four, Matrix.transpose_apply,
      Matrix.cons_val_zero, Matrix.cons_val_one, Matrix.vecHead, Matrix.vecTail,
      Matrix.cons_val_succ, Fin.ext_iff]

theorem demoAntiGram_det_ne_zero :
    ((antiSystem demoAnchorProjected (fun c => c))ᵀ *
      antiSystem demoAnchorProjected (fun c => c)).det ≠ 0 := by
  rw [demoAntiGram_eq]
  norm_num [Matrix.det_fin_three, Matrix.cons_val_zero, Matrix.cons_val_one,
    Matrix.vecHead, Matrix.vecTail, Matrix.cons_val_succ]

/-- With an invertible Gram matrix the normal equations always have a
solution, built from the adjugate. -/
theorem isLstsqSol_exists (A b : Matrix (Fin 4) (Fin 3) ℚ)
    (h : (Aᵀ * A).det ≠ 0) : ∃ X, IsLstsqSol A b X := by
  refine ⟨(((Aᵀ * A).det)⁻¹ • (Aᵀ * A).adjugate) * (Aᵀ * b), ?_⟩
  unfold IsLstsqSol
  have hinv : (Aᵀ * A) * (((Aᵀ * A).det)⁻¹ • (Aᵀ * A).adjugate) = 1 := by
    rw [Matrix.mul_smul, Matrix.mul_adjugate, smul_smul, inv_mul_cancel₀ h, one_smul]
  rw [← Matrix.mul_assoc, ← Matrix.mul_assoc, hinv, Matrix.one_mul]

/-- The least-squares hypothesis of the round-trip statements is satisfiable
at the demo anchors: the anchor system does have normal-equation solutions,
they just fail to reproduce the anchors. -/
theorem demo_isLstsqSol_exists :
    ∃ X, IsLstsqSol (antiSystem demoAnchorProjected (fun c => c))
      (antiTarget demoAnchorColours (fun c => c)) X :=
  isLstsqSol_exists _ _ demoAntiGram_det_ne_zero

/-- C3 counterexample: at the demo anchors (black, green, ochre and white
placed exactly on the four unit-square corners) no 3 x 3 antiprojection
matrix - whether the least-squares solution or any other - reproduces the
anchor colours to within 18 (of 255) per channel: the red channel carries an
irreducible alternating-sum defect of 73, so the 4 x 3 system cannot be
consistent and the round trip is not exact, nor within any small
tolerance. -/
theorem get_antiprojection_roundtrip_fails :
    ¬ ∃ anti : Matrix (Fin 3) (Fin 3) ℚ,
      IsLstsqSol (antiSystem demoAnchorProjected (fun c => c))
          (antiTarget demoAnchorColours (fun c => c)) anti ∧
        roundTripWithin demoAnchorColours demoAnchorProjected (fun c => c) anti 18 := by
  rintro ⟨anti, -, hRT⟩
  have h0 := hRT 0 0
  have h1 := hRT 1 0
  have h2 := hRT 2 0
  have h3 := hRT 3 0
  rw [demoAntiSystem_eq] at h0 h1 h2 h3
  simp only [Matrix.mul_apply, Fin.sum_univ_three, Matrix.of_apply,
    antiTarget, demoAnchorColours, Matrix.cons_val_zero, Matrix.cons_val_one,
    Matrix.head_cons, Matrix.cons_val_two, Matrix.tail_cons, Matrix.cons_val_three,
    Matrix.cons_val_fin_one] at h0 h1 h2 h3
  rw [abs_le] at h0 h1 h2 h3
  obtain ⟨h0l, h0r⟩ := h0
  obtain ⟨h1l, h1r⟩ := h1
  obtain ⟨h2l, h2r⟩ := h2
  obtain ⟨h3l, h3r⟩ := h3
  linarith

/-- C3 amended (consistent case): with the anchors at the four unit-square
corners, whenever the four anchor correspondences are consistent with a
single affine map (the 4 x 3 system has an exact solution), every
normal-equation (least-squares) solution reproduces all four anchors
exactly. -/
theorem get_antiprojection_roundtrip_consistent
    (b : Matrix (Fin 4) (Fin 3) ℚ) (anti : Matrix (Fin 3) (Fin 3) ℚ)
    (hls : IsLstsqSol (antiSystem demoAnchorProjected (fun c => c)) b anti)
    (hcons : ∃ M, antiSystem demoAnchorProjected (fun c => c) * M = b) :
    antiSystem demoAnchorProjected (fun c => c) * anti = b := by
  obtain ⟨M, hM⟩ := hcons
  have hGram : (antiSystem demoAnchorProjected (fun c => c))ᵀ *
      antiSystem demoAnchorProjected (fun c => c) =
      Matrix.of ![![2, 1, 2], ![1, 2, 2], ![2, 2, 4]] := by
    rw [demoAntiSystem_eq]
    ext i j
    fin_cases i <;> fin_cases j <;>
      norm_num [Matrix.mul_apply, Fin.sum_univ_four, Matrix.transpose_apply,
        Matrix.cons_val_zero, Matrix.cons_val_one, Matrix.vecHead, Matrix.vecTail,
        Matrix.cons_val_succ, Fin.ext_iff]
  have hGdet : ((antiSystem demoAnchorProjected (fun c => c))ᵀ *
      antiSystem demoAnchorProjected (fun c => c)).det ≠ 0 := by
    rw [hGram]
    norm_num [Matrix.det_fin_three, Matrix.cons_val_zero, Matrix.cons_val_one,
      Matrix.vecHead, Matrix.vecTail, Matrix.cons_val_succ]
  have hGu : IsUnit ((antiSystem demoAnchorProjected (fun c => c))ᵀ *
      antiSystem demoAnchorProjected (fun c => c)).det :=
    isUnit_iff_ne_zero.mpr hGdet
  have h1 : (antiSystem demoAnchorProjected (fun c => c))ᵀ *
      (antiSystem demoAnchorProjected (fun c => c) * anti) =
      (antiSystem demoAnchorProjected (fun c => c))ᵀ *
      (antiSystem demoAnchorProjected (fun c => c) * M) := by
    rw [hls, hM]
  have h2 : ((antiSystem demoAnchorProjected (fun c => c))ᵀ *
      antiSystem demoAnchorProjected (fun c => c)) * anti =
      ((antiSystem demoAnchorProjected (fun c => c))ᵀ *
      antiSystem demoAnchorProjected (fun c => c)) * M := by
    rw [Matrix.mul_assoc, Matrix.mul_assoc]
    exact h1
  have h3 : anti = M := by
    have h4 := congrArg
      (fun X => ((antiSystem demoAnchorProjected (fun c => c))ᵀ *
        antiSystem demoAnchorProjected (fun c => c))⁻¹ * X) h2
    simpa [← Matrix.mul_assoc, Matrix.nonsing_inv_mul _ hGu] using h4
  rw [h3, hM]

/-- Witness for the amended C3 at a consistent right-hand side. -/
theorem get_antiprojection_roundtrip_consistent_witness :
    IsLstsqSol (antiSystem demoAnchorProjected (fun c => c))
        (antiSystem demoAnchorProjected (fun c => c) * (1 : Matrix (Fin 3) (Fin 3) ℚ))
        (1 : Matrix (Fin 3) (Fin 3) ℚ) ∧
    (∃ M, antiSystem demoAnchorProjected (fun c => c) * M =
        antiSystem demoAnchorProjected (fun c => c) * (1 : Matrix (Fin 3) (Fin 3) ℚ)) ∧
    antiSystem demoAnchorProjected (fun c => c) * (1 : Matrix (Fin 3) (Fin 3) ℚ) =
      antiSystem demoAnchorProjected (fun c => c) * (1 : Matrix (Fin 3) (Fin 3) ℚ) :=
  ⟨rfl, ⟨1, rfl⟩,
   get_antiprojection_roundtrip_consistent
     (antiSystem demoAnchorProjected (fun c => c) * (1 : Matrix (Fin 3) (Fin 3) ℚ))
     (1 : Matrix (Fin 3) (Fin 3) ℚ) rfl ⟨1, rfl⟩⟩

theorem degenerateAntiSystem_eq :
    antiSystem degenerateProjected (fun c => c) =
      Matrix.of ![![0, 0, 1], ![0, 0, 1], ![0, 0, 1], ![0, 0, 1]] := by
  ext c j
  fin_cases c <;> fin_cases j <;>
    norm_num [antiSystem, degenerateProjected]

/-- C9 counterexample: a rank-deficient anchor system - all four anchors
projected onto the same corner point - on which `get_antiprojection`
returns a matrix instead of raising.  The least-squares system has rank
below 3, yet the call succeeds for every solver output and reported rank. -/
theorem get_antiprojection_no_rank_check :
    (antiSystem degenerateProjected (fun c => c)).rank < 3 ∧
    get_antiprojection (fun _ : Fin 4 => ![0, 0, 0]) degenerateProjected
      (fun c => c) 0 1 = .ok 0 := by
  constructor
  · have hGram : (antiSystem degenerateProjected (fun c => c))ᵀ *
        antiSystem degenerateProjected (fun c => c) =
        Matrix.of ![![0, 0, 0], ![0, 0, 0], ![0, 0, 4]] := by
      rw [degenerateAntiSystem_eq]
      ext i j
      fin_cases i <;> fin_cases j <;>
        norm_num [Matrix.mul_apply, Fin.sum_univ_four, Matrix.transpose_apply,
          Matrix.cons_val_zero, Matrix.cons_val_one, Matrix.vecHead, Matrix.vecTail,
          Matrix.cons_val_succ, Fin.ext_iff]
    have hdet : ((antiSystem degenerateProjected (fun c => c))ᵀ *
        antiSystem degenerateProjected (fun c => c)).det = 0 := by
      rw [hGram]
      norm_num [Matrix.det_fin_three, Matrix.cons_val_zero, Matrix.cons_val_one,
        Matrix.vecHead, Matrix.vecTail, Matrix.cons_val_succ]
    have hle : (antiSystem degenerateProjected (fun c => c)).rank ≤ 3 := by
      simpa using (antiSystem degenerateProjected (fun c => c)).rank_le_card_width
    have hne : (antiSystem degenerateProjected (fun c => c)).rank ≠ 3 := by
      intro h3
      exact absurd ((gram_det_ne_zero_iff_rank _).mpr h3) (by simpa using hdet)
    omega
  · rfl

/-- C9 amended: `get_antiprojection` performs no rank check at all - for
every input, every solver matrix and every reported rank it returns the
matrix and never raises. -/
theorem get_antiprojection_total {n : ℕ} (colours : Fin n → Fin 3 → ℚ)
    (projected : Fin n → Fin 2 → ℚ) (corner_idx : Fin 4 → Fin n)
    (anti : Matrix (Fin 3) (Fin 3) ℚ) (rank : ℕ) :
    get_antiprojection colours projected corner_idx anti rank = .ok anti := rfl

theorem clip255_nonneg (x : ℚ) : 0 ≤ clip255 x :=
  le_min (le_max_right _ _) (by norm_num)

theorem clip255_le_255 (x : ℚ) : clip255 x ≤ 255 := min_le_right _ _

/-- Filtering on non-membership keeps `length - (number of members)` rows. -/
theorem length_missing (l proj : List (ℚ × ℚ)) :
    (l.filter (fun c => decide (c ∉ proj))).length =
      l.length - (l.filter (fun c => decide (c ∈ proj))).length := by
  induction l with
  | nil => rfl
  | cons a t ih =>
    have hle := List.length_filter_le (fun c => decide (c ∈ proj)) t
    simp only [List.filter_cons]
    by_cases h : a ∈ proj
    · rw [if_neg (by simp [h]), if_pos (by simp [h])]
      simp only [List.length_cons]
      rw [ih]
      omega
    · rw [if_pos (by simp [h]), if_neg (by simp [h])]
      simp only [List.length_cons]
      rw [ih]
      omega

/-- C8: synthetic corner insertion.  Exactly `4 - k` synthetic corners are
appended, where `k` is the number of the four target corners already
occupied by a projected sample (zero appended when all four are occupied),
and every synthetic corner colour is the antiprojection of the homogeneous
corner clipped to `[0, 255]` (then integer-truncated), hence lies in
`[0, 255]` channelwise. -/
theorem plot_delaunay_gouraud_corners (projected : List (ℚ × ℚ))
    (anti : Matrix (Fin 3) (Fin 3) ℚ) :
    (missing_corners cornerTargetList projected).length =
      4 - (cornerTargetList.filter (fun c => decide (c ∈ projected))).length ∧
    (projected_with_corners cornerTargetList projected).length =
      projected.length + (missing_corners cornerTargetList projected).length ∧
    ∀ c ∈ missing_corners cornerTargetList projected, ∀ ch,
      syntheticRGB anti c ch = ⌊clip255 (antiApply anti c ch)⌋ ∧
      0 ≤ syntheticRGB anti c ch ∧ syntheticRGB anti c ch ≤ 255 := by
  refine ⟨?_, ?_, ?_⟩
  · exact length_missing cornerTargetList projected
  · exact List.length_append projected _
  · intro c _ ch
    refine ⟨rfl, ?_, ?_⟩
    · exact Int.floor_nonneg.mpr (clip255_nonneg _)
    · have h := Int.floor_le_floor (clip255_le_255 (antiApply anti c ch))
      simpa using h

/-- Witness for C8: two of the four corners occupied, identity
antiprojection; the corner `(0, 1)` is missing. -/
theorem plot_delaunay_gouraud_corners_witness :
    ((0 : ℚ), (1 : ℚ)) ∈
      missing_corners cornerTargetList [((0:ℚ), (0:ℚ)), ((1:ℚ), (1:ℚ))] ∧
    ((missing_corners cornerTargetList [((0:ℚ), (0:ℚ)), ((1:ℚ), (1:ℚ))]).length =
      4 - (cornerTargetList.filter
        (fun c => decide (c ∈ [((0:ℚ), (0:ℚ)), ((1:ℚ), (1:ℚ))]))).length ∧
    (projected_with_corners cornerTargetList [((0:ℚ), (0:ℚ)), ((1:ℚ), (1:ℚ))]).length =
      ([((0:ℚ), (0:ℚ)), ((1:ℚ), (1:ℚ))] : List (ℚ × ℚ)).length +
        (missing_corners cornerTargetList [((0:ℚ), (0:ℚ)), ((1:ℚ), (1:ℚ))]).length ∧
    ∀ c ∈ missing_corners cornerTargetList [((0:ℚ), (0:ℚ)), ((1:ℚ), (1:ℚ))], ∀ ch,
      syntheticRGB 1 c ch = ⌊clip255 (antiApply 1 c ch)⌋ ∧
      0 ≤ syntheticRGB 1 c ch ∧ syntheticRGB 1 c ch ≤ 255) :=
  ⟨by norm_num [missing_corners, cornerTargetList],
   plot_delaunay_gouraud_corners [((0:ℚ), (0:ℚ)), ((1:ℚ), (1:ℚ))] 1⟩

end Mycota

